import Mathlib

/-!
Verification development for the verify-event-recorder-service repository.

The repository has two components:
* the bulk IDP fraud-data file-import pipeline (`idp_fraud_data_handler`),
  characterized by its specification and test suite; and
* the queue consumer (`src/event_handler.py`), which fetches encrypted
  messages from a queue, decrypts them, maps them to typed events, writes
  audit / billing / fraud records and deletes handled messages.

The import pipeline's own module is not present in the sources, only its
tests; its definitions below are therefore modelled from the specification.
The queue consumer is embedded directly from `src/event_handler.py`.
-/

namespace EventRecorder

/-! ## Contra-Indicator Aggregator

Modelled from the spec: the raw indicator field of a row may use comma,
line-feed, or carriage-return-line-feed as separator.  The algorithm is:
split on the delimiter, trim each token of surrounding whitespace, discard
empty tokens, group remaining tokens by exact (case-sensitive) code, and
count occurrences per code; read-back enumerates pairs in ascending code
order. -/

/-- Whitespace characters relevant to trimming a token. -/
def isWs (c : Char) : Bool :=
  c = ' ' || c = '\t' || c = '\r' || c = '\n'

/-- Characters at which the indicator field is split.  Splitting at both
`,` and `\n` accepts comma, LF and CRLF separated lists with no prior
configuration (a CR left behind by a CRLF separator is trimmed away as
whitespace). -/
def isDelim (c : Char) : Bool :=
  c = ',' || c = '\n'

/-- Trim surrounding whitespace from a token. -/
def trimChars (cs : List Char) : List Char :=
  ((cs.dropWhile isWs).reverse.dropWhile isWs).reverse

/-- Split a raw indicator field at delimiter characters. -/
def splitToks : List Char → List (List Char)
  | [] => [[]]
  | c :: rest =>
    if isDelim c then [] :: splitToks rest
    else
      match splitToks rest with
      | [] => [[c]]
      | t :: ts => (c :: t) :: ts

/-- The cleaned token list of a raw indicator field: split, trim each
token, discard empty tokens. -/
def cleanTokens (cs : List Char) : List String :=
  (((splitToks cs).map trimChars).filter (· ≠ [])).map List.asString

/-- Lexicographic strict order on character lists. -/
def lexLt : List Char → List Char → Bool
  | [], [] => false
  | [], _ :: _ => true
  | _ :: _, [] => false
  | a :: as, b :: bs =>
    if a < b then true
    else if b < a then false
    else lexLt as bs

/-- Lexicographic strict order on codes. -/
def strLt (a b : String) : Bool :=
  lexLt a.toList b.toList

/-- Insert one occurrence of indicator code `t` into an ascending
association list of (code, count) pairs. -/
def insertCode (t : String) : List (String × Nat) → List (String × Nat)
  | [] => [(t, 1)]
  | (c, n) :: rest =>
    if t = c then (c, n + 1) :: rest
    else if strLt t c then (t, 1) :: (c, n) :: rest
    else (c, n) :: insertCode t rest

/-- Aggregate a raw indicator field into (code, occurrence-count) pairs,
kept in ascending code order. -/
def aggregate (cs : List Char) : List (String × Nat) :=
  (cleanTokens cs).foldl (fun acc t => insertCode t acc) []

/-- Aggregate, starting from a string field. -/
def aggregateS (s : String) : List (String × Nat) :=
  aggregate s.toList

/-- Total count recorded for a given code in an association list. -/
def entryFor (l : List (String × Nat)) (c : String) : Nat :=
  ((l.filter (fun p => p.1 = c)).map (fun p => p.2)).sum

/-- The codes of an aggregation result. -/
def keysOf (l : List (String × Nat)) : List String :=
  l.map (fun p => p.1)

/-- Sum of all counts in an aggregation result. -/
def sumCounts (l : List (String × Nat)) : Nat :=
  (l.map (fun p => p.2)).sum

/-! ### Aggregator lemmas -/

theorem string_toList_inj (a b : String) (h : a.toList = b.toList) : a = b := by
  cases a
  cases b
  exact congrArg String.mk h

theorem lexLt_trans (a : List Char) :
    ∀ b c, lexLt a b = true → lexLt b c = true → lexLt a c = true := by
  induction a with
  | nil =>
    intro b c h1 h2
    cases b with
    | nil => exact absurd h1 (by simp [lexLt])
    | cons y ys =>
      cases c with
      | nil => exact absurd h2 (by simp [lexLt])
      | cons z zs => simp [lexLt]
  | cons x xs ih =>
    intro b c h1 h2
    cases b with
    | nil => exact absurd h1 (by simp [lexLt])
    | cons y ys =>
      cases c with
      | nil => exact absurd h2 (by simp [lexLt])
      | cons z zs =>
        rw [lexLt] at h1 h2 ⊢
        rcases lt_trichotomy x y with hxy | hxy | hxy
        · rcases lt_trichotomy y z with hyz | hyz | hyz
          · rw [if_pos (lt_trans hxy hyz)]
          · subst hyz
            rw [if_pos hxy]
          · rw [if_neg (asymm hyz), if_pos hyz] at h2
            exact absurd h2 (by simp)
        · subst hxy
          rw [if_neg (lt_irrefl x), if_neg (lt_irrefl x)] at h1
          rcases lt_trichotomy x z with hxz | hxz | hxz
          · rw [if_pos hxz]
          · subst hxz
            rw [if_neg (lt_irrefl x), if_neg (lt_irrefl x)] at h2 ⊢
            exact ih ys zs h1 h2
          · rw [if_neg (asymm hxz), if_pos hxz] at h2
            exact absurd h2 (by simp)
        · rw [if_neg (asymm hxy), if_pos hxy] at h1
          exact absurd h1 (by simp)

theorem lexLt_connex (a : List Char) :
    ∀ b, a ≠ b → lexLt a b = false → lexLt b a = true := by
  induction a with
  | nil =>
    intro b hne h
    cases b with
    | nil => exact absurd rfl hne
    | cons y ys => exact absurd h (by simp [lexLt])
  | cons x xs ih =>
    intro b hne h
    cases b with
    | nil => simp [lexLt]
    | cons y ys =>
      rw [lexLt] at h ⊢
      rcases lt_trichotomy x y with hxy | hxy | hxy
      · rw [if_pos hxy] at h
        exact absurd h (by simp)
      · subst hxy
        rw [if_neg (lt_irrefl x), if_neg (lt_irrefl x)] at h ⊢
        exact ih ys (fun hh => hne (by rw [hh])) h
      · rw [if_pos hxy]

theorem strLt_trans (a b c : String) (h1 : strLt a b = true) (h2 : strLt b c = true) :
    strLt a c = true :=
  lexLt_trans a.toList b.toList c.toList h1 h2

theorem strLt_connex (a b : String) (hne : a ≠ b) (h : strLt a b = false) :
    strLt b a = true :=
  lexLt_connex a.toList b.toList
    (fun hh => hne (string_toList_inj a b hh)) h

theorem entryFor_nil (c : String) : entryFor [] c = 0 := rfl

theorem entryFor_cons (k : String) (n : Nat) (l : List (String × Nat)) (c : String) :
    entryFor ((k, n) :: l) c = (if k = c then n else 0) + entryFor l c := by
  by_cases h : k = c <;> simp [entryFor, List.filter_cons, h]

theorem sumCounts_nil : sumCounts [] = 0 := rfl

theorem sumCounts_cons (k : String) (n : Nat) (l : List (String × Nat)) :
    sumCounts ((k, n) :: l) = n + sumCounts l := by
  simp [sumCounts]

theorem entryFor_insertCode (t : String) (l : List (String × Nat)) (c : String) :
    entryFor (insertCode t l) c = entryFor l c + (if t = c then 1 else 0) := by
  induction l with
  | nil =>
    simp only [show insertCode t [] = [(t, 1)] from rfl, entryFor_cons, entryFor_nil]
    split_ifs <;> omega
  | cons p rest ih =>
    obtain ⟨k, n⟩ := p
    by_cases htk : t = k
    · subst htk
      simp only [show insertCode t ((t, n) :: rest) = (t, n + 1) :: rest from by
        simp [insertCode], entryFor_cons]
      split_ifs <;> omega
    · by_cases hlt : strLt t k = true
      · simp only [show insertCode t ((k, n) :: rest) = (t, 1) :: (k, n) :: rest from by
          simp [insertCode, htk, hlt], entryFor_cons]
        split_ifs <;> omega
      · simp only [show insertCode t ((k, n) :: rest) = (k, n) :: insertCode t rest from by
          simp [insertCode, htk, hlt], entryFor_cons, ih]
        split_ifs <;> omega

theorem sumCounts_insertCode (t : String) (l : List (String × Nat)) :
    sumCounts (insertCode t l) = sumCounts l + 1 := by
  induction l with
  | nil => rfl
  | cons p rest ih =>
    obtain ⟨k, n⟩ := p
    by_cases htk : t = k
    · subst htk
      simp only [show insertCode t ((t, n) :: rest) = (t, n + 1) :: rest from by
        simp [insertCode], sumCounts_cons]
      omega
    · by_cases hlt : strLt t k = true
      · simp only [show insertCode t ((k, n) :: rest) = (t, 1) :: (k, n) :: rest from by
          simp [insertCode, htk, hlt], sumCounts_cons]
        omega
      · simp only [show insertCode t ((k, n) :: rest) = (k, n) :: insertCode t rest from by
          simp [insertCode, htk, hlt], sumCounts_cons, ih]
        omega

theorem mem_keys_insertCode (t : String) (l : List (String × Nat)) (c : String) :
    c ∈ keysOf (insertCode t l) ↔ c = t ∨ c ∈ keysOf l := by
  induction l with
  | nil => simp [insertCode, keysOf]
  | cons p rest ih =>
    obtain ⟨k, n⟩ := p
    by_cases htk : t = k
    · subst htk
      rw [show insertCode t ((t, n) :: rest) = (t, n + 1) :: rest from by
        simp [insertCode]]
      simp only [keysOf, List.map_cons, List.mem_cons] <;> tauto
    · by_cases hlt : strLt t k = true
      · rw [show insertCode t ((k, n) :: rest) = (t, 1) :: (k, n) :: rest from by
          simp [insertCode, htk, hlt]]
        simp only [keysOf, List.map_cons, List.mem_cons] <;> tauto
      · rw [show insertCode t ((k, n) :: rest) = (k, n) :: insertCode t rest from by
          simp [insertCode, htk, hlt]]
        simp only [keysOf, List.map_cons, List.mem_cons] at ih ⊢ <;> tauto

theorem sorted_insertCode (t : String) (l : List (String × Nat))
    (h : (keysOf l).Sorted (fun a b => strLt a b = true)) :
    (keysOf (insertCode t l)).Sorted (fun a b => strLt a b = true) := by
  induction l with
  | nil => simp [insertCode, keysOf]
  | cons p rest ih =>
    obtain ⟨k, n⟩ := p
    have h' : (∀ b ∈ keysOf rest, strLt k b = true) ∧
        (keysOf rest).Sorted (fun a b => strLt a b = true) := by
      rw [show keysOf ((k, n) :: rest) = k :: keysOf rest from rfl,
        List.sorted_cons] at h
      exact h
    obtain ⟨hk, hrest⟩ := h'
    by_cases htk : t = k
    · subst htk
      rw [show insertCode t ((t, n) :: rest) = (t, n + 1) :: rest from by
        simp [insertCode]]
      rw [show keysOf ((t, n + 1) :: rest) = t :: keysOf rest from rfl,
        List.sorted_cons]
      exact ⟨hk, hrest⟩
    · by_cases hlt : strLt t k = true
      · rw [show insertCode t ((k, n) :: rest) = (t, 1) :: (k, n) :: rest from by
          simp [insertCode, htk, hlt]]
        rw [show keysOf ((t, 1) :: (k, n) :: rest) = t :: k :: keysOf rest from rfl,
          List.sorted_cons, List.sorted_cons]
        refine ⟨?_, hk, hrest⟩
        intro b hb
        rcases List.mem_cons.1 hb with hb | hb
        · exact hb ▸ hlt
        · exact strLt_trans t k b hlt (hk _ hb)
      · have hkt : strLt k t = true :=
          strLt_connex t k htk (by simpa using hlt)
        rw [show insertCode t ((k, n) :: rest) = (k, n) :: insertCode t rest from by
          simp [insertCode, htk, hlt]]
        rw [show keysOf ((k, n) :: insertCode t rest) = k :: keysOf (insertCode t rest)
          from rfl, List.sorted_cons]
        refine ⟨?_, ih hrest⟩
        intro b hb
        rcases (mem_keys_insertCode t rest b).1 hb with hbt | hbr
        · exact hbt ▸ hkt
        · exact hk _ hbr

/-- Folding insertion over a token list, starting from accumulator `acc`. -/
def foldTokens (toks : List String) (acc : List (String × Nat)) : List (String × Nat) :=
  toks.foldl (fun a t => insertCode t a) acc

theorem aggregate_eq_foldTokens (cs : List Char) :
    aggregate cs = foldTokens (cleanTokens cs) [] := rfl

theorem entryFor_foldTokens (toks : List String) (acc : List (String × Nat)) (c : String) :
    entryFor (foldTokens toks acc) c = entryFor acc c + toks.count c := by
  induction toks generalizing acc with
  | nil => simp [foldTokens]
  | cons t rest ih =>
    rw [show foldTokens (t :: rest) acc = foldTokens rest (insertCode t acc) from rfl,
      ih, entryFor_insertCode]
    by_cases h : t = c
    · subst h; simp [List.count_cons]; omega
    · simp [List.count_cons, h, fun hh : c = t => h hh.symm]

theorem sumCounts_foldTokens (toks : List String) (acc : List (String × Nat)) :
    sumCounts (foldTokens toks acc) = sumCounts acc + toks.length := by
  induction toks generalizing acc with
  | nil => simp [foldTokens]
  | cons t rest ih =>
    rw [show foldTokens (t :: rest) acc = foldTokens rest (insertCode t acc) from rfl,
      ih, sumCounts_insertCode]
    simp
    omega

theorem mem_keys_foldTokens (toks : List String) (acc : List (String × Nat)) (c : String) :
    c ∈ keysOf (foldTokens toks acc) ↔ c ∈ toks ∨ c ∈ keysOf acc := by
  induction toks generalizing acc with
  | nil => simp [foldTokens]
  | cons t rest ih =>
    rw [show foldTokens (t :: rest) acc = foldTokens rest (insertCode t acc) from rfl,
      ih]
    rw [mem_keys_insertCode]
    simp [List.mem_cons]
    tauto

theorem sorted_foldTokens (toks : List String) (acc : List (String × Nat))
    (h : (keysOf acc).Sorted (fun a b => strLt a b = true)) :
    (keysOf (foldTokens toks acc)).Sorted (fun a b => strLt a b = true) := by
  induction toks generalizing acc with
  | nil => exact h
  | cons t rest ih =>
    exact ih (insertCode t acc) (sorted_insertCode t acc h)

/-- The per-code count of the aggregation of a raw field equals the number
of occurrences of that code among the cleaned tokens. -/
theorem entryFor_aggregate (cs : List Char) (c : String) :
    entryFor (aggregate cs) c = (cleanTokens cs).count c := by
  rw [aggregate_eq_foldTokens, entryFor_foldTokens, entryFor_nil]
  omega

/-- The counts of an aggregation sum to the number of cleaned tokens. -/
theorem sumCounts_aggregate (cs : List Char) :
    sumCounts (aggregate cs) = (cleanTokens cs).length := by
  rw [aggregate_eq_foldTokens, sumCounts_foldTokens, sumCounts_nil]
  omega

/-- A code appears in the aggregation iff it occurs among the cleaned tokens. -/
theorem mem_keys_aggregate (cs : List Char) (c : String) :
    c ∈ keysOf (aggregate cs) ↔ c ∈ cleanTokens cs := by
  rw [aggregate_eq_foldTokens, mem_keys_foldTokens]
  simp [keysOf]

/-- Aggregation results are enumerated in strictly ascending code order. -/
theorem sorted_aggregate (cs : List Char) :
    (keysOf (aggregate cs)).Sorted (fun a b => strLt a b = true) := by
  rw [aggregate_eq_foldTokens]
  exact sorted_foldTokens _ _ (by simp [keysOf])

/-! ### Splitting lemmas (delimiter independence) -/

theorem splitToks_delim_cons (d : Char) (hd : isDelim d = true) (ys : List Char) :
    splitToks (d :: ys) = [] :: splitToks ys := by
  simp [splitToks, hd]

theorem splitToks_ne_nil (cs : List Char) : splitToks cs ≠ [] := by
  cases cs with
  | nil => simp [splitToks]
  | cons c rest =>
    by_cases h : isDelim c
    · simp [splitToks, h]
    · simp only [splitToks, if_neg h]
      cases splitToks rest <;> simp

theorem splitToks_nondelim_cons (c : Char) (hc : isDelim c = false) (ys : List Char) :
    splitToks (c :: ys) = (c :: (splitToks ys).headI) :: (splitToks ys).tail := by
  have h := splitToks_ne_nil ys
  cases hys : splitToks ys with
  | nil => exact absurd hys h
  | cons t ts => simp [splitToks, hc, hys]

/-- Splitting a delimiter-free chunk followed by a delimiter and a rest. -/
theorem splitToks_append_delim (xs : List Char) (hxs : ∀ c ∈ xs, isDelim c = false)
    (d : Char) (hd : isDelim d = true) (ys : List Char) :
    splitToks (xs ++ d :: ys) = xs :: splitToks ys := by
  induction xs with
  | nil => simpa using splitToks_delim_cons d hd ys
  | cons x xs ih =>
    have hx : isDelim x = false := hxs x (List.mem_cons_self x xs)
    have hxs' : ∀ c ∈ xs, isDelim c = false := fun c hc => hxs c (List.mem_cons_of_mem x hc)
    rw [List.cons_append, splitToks_nondelim_cons x hx, ih hxs']
    simp

/-- Splitting a single delimiter-free chunk. -/
theorem splitToks_no_delim (xs : List Char) (hxs : ∀ c ∈ xs, isDelim c = false) :
    splitToks xs = [xs] := by
  induction xs with
  | nil => rfl
  | cons x xs ih =>
    have hx : isDelim x = false := hxs x (List.mem_cons_self x xs)
    have hxs' : ∀ c ∈ xs, isDelim c = false := fun c hc => hxs c (List.mem_cons_of_mem x hc)
    rw [splitToks_nondelim_cons x hx, ih hxs']
    simp

theorem dropWhile_append_of_eq_nil (p : Char → Bool) (xs ys : List Char)
    (h : xs.dropWhile p = []) :
    (xs ++ ys).dropWhile p = ys.dropWhile p := by
  induction xs with
  | nil => simp
  | cons x xs ih =>
    by_cases hx : p x
    · rw [List.cons_append, List.dropWhile_cons_of_pos hx]
      rw [List.dropWhile_cons_of_pos hx] at h
      exact ih h
    · rw [List.dropWhile_cons_of_neg hx] at h
      exact absurd h (List.cons_ne_nil x xs)

theorem dropWhile_append_of_ne_nil (p : Char → Bool) (xs ys : List Char)
    (h : xs.dropWhile p ≠ []) :
    (xs ++ ys).dropWhile p = xs.dropWhile p ++ ys := by
  induction xs with
  | nil => exact absurd rfl h
  | cons x xs ih =>
    by_cases hx : p x
    · rw [List.cons_append, List.dropWhile_cons_of_pos hx,
        List.dropWhile_cons_of_pos hx] at *
      exact ih h
    · rw [List.cons_append, List.dropWhile_cons_of_neg hx,
        List.dropWhile_cons_of_neg hx, List.cons_append]

/-- A trailing whitespace character does not change the trimmed token. -/
theorem trimChars_append_ws (cs : List Char) (c : Char) (hc : isWs c = true) :
    trimChars (cs ++ [c]) = trimChars cs := by
  unfold trimChars
  by_cases h : cs.dropWhile isWs = []
  · rw [dropWhile_append_of_eq_nil isWs cs [c] h, h]
    rw [List.dropWhile_cons_of_pos hc]
    rfl
  · rw [dropWhile_append_of_ne_nil isWs cs [c] h]
    rw [List.reverse_append]
    simp only [List.reverse_cons, List.reverse_nil, List.nil_append,
      List.singleton_append]
    rw [List.dropWhile_cons_of_pos hc]

/-- A token consisting solely of whitespace trims to the empty token. -/
theorem trimChars_eq_nil_of_ws (cs : List Char) (h : ∀ c ∈ cs, isWs c = true) :
    trimChars cs = [] := by
  unfold trimChars
  have h1 : cs.dropWhile isWs = [] := List.dropWhile_eq_nil_iff.2 h
  rw [h1]
  rfl

/-- Every character of every raw token produced by `splitToks` comes from
the input. -/
theorem splitToks_chars_subset (cs : List Char) :
    ∀ t ∈ splitToks cs, ∀ c ∈ t, c ∈ cs := by
  induction cs with
  | nil =>
    intro t ht c hc
    simp [splitToks] at ht
    subst ht
    exact absurd hc (List.not_mem_nil c)
  | cons x xs ih =>
    intro t ht c hc
    by_cases hx : isDelim x
    · rw [splitToks_delim_cons x hx xs] at ht
      rcases List.mem_cons.1 ht with h | h
      · subst h; exact absurd hc (List.not_mem_nil c)
      · exact List.mem_cons_of_mem x (ih t h c hc)
    · rw [splitToks_nondelim_cons x (by simpa using hx) xs] at ht
      rcases List.mem_cons.1 ht with h | h
      · subst h
        rcases List.mem_cons.1 hc with h' | h'
        · exact h' ▸ List.mem_cons_self x xs
        · have hhead : (splitToks xs).headI ∈ splitToks xs := by
            have := splitToks_ne_nil xs
            cases hs : splitToks xs with
            | nil => exact absurd hs this
            | cons a as => simp
          exact List.mem_cons_of_mem x (ih _ hhead c h')
      · have htail : t ∈ splitToks xs := by
          have := splitToks_ne_nil xs
          cases hs : splitToks xs with
          | nil => exact absurd hs this
          | cons a as =>
            rw [hs] at h
            exact hs ▸ List.mem_cons_of_mem a h
        exact List.mem_cons_of_mem x (ih t htail c hc)

/-- A blank or whitespace-only indicator field yields zero cleaned tokens. -/
theorem cleanTokens_eq_nil_of_ws (cs : List Char) (h : ∀ c ∈ cs, isWs c = true) :
    cleanTokens cs = [] := by
  unfold cleanTokens
  rw [List.map_eq_nil_iff, List.filter_eq_nil_iff]
  intro t ht
  rcases List.mem_map.1 ht with ⟨u, hu, rfl⟩
  have := trimChars_eq_nil_of_ws u (fun c hc => h c (splitToks_chars_subset cs u hu c hc))
  simp [this]

/-- A blank or whitespace-only indicator field aggregates to zero counts. -/
theorem aggregate_eq_nil_of_ws (cs : List Char) (h : ∀ c ∈ cs, isWs c = true) :
    aggregate cs = [] := by
  rw [aggregate_eq_foldTokens, cleanTokens_eq_nil_of_ws cs h]
  rfl

/-! ### Delimiter independence -/

/-- A producer joins logical tokens with its separator of choice. -/
def joinSep (sep : List Char) : List (List Char) → List Char
  | [] => []
  | [t] => t
  | t :: u :: rest => t ++ sep ++ joinSep sep (u :: rest)

/-- Characters a logical indicator token may not contain: the separator
characters themselves. -/
def tokenOk (t : List Char) : Prop :=
  ∀ c ∈ t, c ≠ ',' ∧ c ≠ '\n' ∧ c ≠ '\r'

instance (t : List Char) : Decidable (tokenOk t) := by
  unfold tokenOk
  infer_instance

theorem isDelim_eq_false_of_tokenOk (t : List Char) (h : tokenOk t) :
    ∀ c ∈ t, isDelim c = false := by
  intro c hc
  obtain ⟨h1, h2, _⟩ := h c hc
  simp [isDelim, h1, h2]

theorem splitToks_joinSep_single (d : Char) (hd : isDelim d = true)
    (toks : List (List Char)) (h : ∀ t ∈ toks, tokenOk t) (hne : toks ≠ []) :
    splitToks (joinSep [d] toks) = toks := by
  induction toks with
  | nil => exact absurd rfl hne
  | cons t rest ih =>
    cases rest with
    | nil =>
      rw [show joinSep [d] [t] = t from rfl]
      exact splitToks_no_delim t
        (isDelim_eq_false_of_tokenOk t (h t (List.mem_cons_self t [])))
    | cons u rest' =>
      rw [show joinSep [d] (t :: u :: rest') = t ++ [d] ++ joinSep [d] (u :: rest')
        from rfl]
      rw [List.append_assoc, List.singleton_append]
      rw [splitToks_append_delim t
        (isDelim_eq_false_of_tokenOk t (h t (List.mem_cons_self t _))) d hd _]
      rw [ih (fun x hx => h x (List.mem_cons_of_mem t hx)) (List.cons_ne_nil u rest')]

theorem splitToks_joinSep_crlf (toks : List (List Char)) (h : ∀ t ∈ toks, tokenOk t)
    (hne : toks ≠ []) :
    ∃ marked : List (List Char),
      splitToks (joinSep ['\r', '\n'] toks) = marked ∧
      marked.map trimChars = toks.map trimChars := by
  induction toks with
  | nil => exact absurd rfl hne
  | cons t rest ih =>
    cases rest with
    | nil =>
      refine ⟨[t], ?_, rfl⟩
      rw [show joinSep ['\r', '\n'] [t] = t from rfl]
      exact splitToks_no_delim t
        (isDelim_eq_false_of_tokenOk t (h t (List.mem_cons_self t [])))
    | cons u rest' =>
      obtain ⟨marked, hm1, hm2⟩ := ih (fun x hx => h x (List.mem_cons_of_mem t hx))
        (List.cons_ne_nil u rest')
      refine ⟨(t ++ ['\r']) :: marked, ?_, ?_⟩
      · rw [show joinSep ['\r', '\n'] (t :: u :: rest')
          = t ++ ['\r', '\n'] ++ joinSep ['\r', '\n'] (u :: rest') from rfl]
        have : t ++ ['\r', '\n'] ++ joinSep ['\r', '\n'] (u :: rest')
            = (t ++ ['\r']) ++ '\n' :: joinSep ['\r', '\n'] (u :: rest') := by
          simp
        rw [this]
        rw [splitToks_append_delim (t ++ ['\r']) ?_ '\n' (by simp [isDelim]) _]
        · rw [hm1]
        · intro c hc
          rcases List.mem_append.1 hc with h' | h'
          · exact isDelim_eq_false_of_tokenOk t (h t (List.mem_cons_self t _)) c h'
          · rcases List.mem_singleton.1 h' with rfl
            simp [isDelim]
      · rw [List.map_cons, List.map_cons, hm2,
          trimChars_append_ws t '\r' (by simp [isWs])]

/-- The cleaned token list obtained from a joined field is the canonical
cleaning of the logical token list, for each of the three separators. -/
theorem cleanTokens_joinSep (toks : List (List Char)) (h : ∀ t ∈ toks, tokenOk t)
    (sep : List Char) (hsep : sep = [','] ∨ sep = ['\n'] ∨ sep = ['\r', '\n']) :
    cleanTokens (joinSep sep toks)
      = (((toks.map trimChars).filter (· ≠ [])).map List.asString) := by
  cases toks with
  | nil =>
    rcases hsep with rfl | rfl | rfl <;> rfl
  | cons t rest =>
    have hne : t :: rest ≠ [] := List.cons_ne_nil t rest
    unfold cleanTokens
    rcases hsep with rfl | rfl | rfl
    · rw [splitToks_joinSep_single ',' (by simp [isDelim]) _ h hne]
    · rw [splitToks_joinSep_single '\n' (by simp [isDelim]) _ h hne]
    · obtain ⟨marked, hm1, hm2⟩ := splitToks_joinSep_crlf _ h hne
      rw [hm1, hm2]

/-- Aggregation is independent of the separator used for the indicator
sub-field. -/
theorem aggregate_joinSep_sep_invariant (toks : List (List Char))
    (h : ∀ t ∈ toks, tokenOk t) (sep sep' : List Char)
    (hsep : sep = [','] ∨ sep = ['\n'] ∨ sep = ['\r', '\n'])
    (hsep' : sep' = [','] ∨ sep' = ['\n'] ∨ sep' = ['\r', '\n']) :
    aggregate (joinSep sep toks) = aggregate (joinSep sep' toks) := by
  rw [aggregate_eq_foldTokens, aggregate_eq_foldTokens,
    cleanTokens_joinSep toks h sep hsep, cleanTokens_joinSep toks h sep' hsep']

/-! ## Temporal Normalizer

Modelled from the spec: a free-form timestamp string is converted into an
absolute instant by trying a fixed set of recognized formats in order —
`DD/MM/YYYY HH:MM` (no zone, interpreted in the configured default time
zone, Europe/London) and ISO-8601 UTC instants with sub-second precision.
The time-zone offset is applied only to the zone-less format.  Instants
are counted in units of 100 nanoseconds since the Unix epoch. -/

/-- A civil (wall-clock) date-time, to minute precision. -/
structure Civil where
  year : Nat
  month : Nat
  day : Nat
  hour : Nat
  minute : Nat
deriving DecidableEq

/-- Gregorian leap-year rule. -/
def isLeap (y : Nat) : Bool :=
  y % 4 = 0 && (y % 100 ≠ 0 || y % 400 = 0)

/-- Days in a month of a given year. -/
def daysInMonth (y m : Nat) : Nat :=
  if m = 2 then (if isLeap y then 29 else 28)
  else if m = 4 || m = 6 || m = 9 || m = 11 then 30
  else 31

/-- A civil date-time is valid when its fields are in range. -/
def validCivil (c : Civil) : Bool :=
  1 ≤ c.year && c.year ≤ 9999 &&
  1 ≤ c.month && c.month ≤ 12 &&
  1 ≤ c.day && c.day ≤ daysInMonth c.year c.month &&
  c.hour < 24 && c.minute < 60

/-- Days since 1970-01-01 of a Gregorian date (shifted-era algorithm). -/
def daysFromCivil (y m d : Nat) : Int :=
  let y' : Nat := if m ≤ 2 then y - 1 else y
  let era : Nat := y' / 400
  let yoe : Nat := y' % 400
  let mp : Nat := (m + 9) % 12
  let doy : Nat := (153 * mp + 2) / 5 + (d - 1)
  let doe : Nat := yoe * 365 + yoe / 4 - yoe / 100 + doy
  (era * 146097 + doe : Int) - 719468

/-- Minutes since the Unix epoch of a civil date-time. -/
def minutesFromCivil (c : Civil) : Int :=
  daysFromCivil c.year c.month c.day * 1440 + c.hour * 60 + c.minute

/-- An absolute instant, in units of 100 nanoseconds since the epoch. -/
abbrev Instant := Int

/-- Build an instant from whole minutes, seconds and 100-nanosecond units. -/
def toInstant (minutes : Int) (sec : Nat) (frac : Nat) : Instant :=
  (minutes * 60 + sec) * 10000000 + frac

/-- Day of week of a day number (Sunday = 0; 1970-01-01 was a Thursday). -/
def dayOfWeek (z : Int) : Nat :=
  ((z + 4) % 7).toNat

/-- Day-of-month of the last Sunday of a 31-day month. -/
def lastSundayDay (y m : Nat) : Nat :=
  31 - dayOfWeek (daysFromCivil y m 31)

/-- UTC offset in minutes of the default zone (Europe/London) at a local
wall-clock time: British Summer Time runs from 01:00 local on the last
Sunday of March to 02:00 local on the last Sunday of October. -/
def ukOffset (c : Civil) : Int :=
  let key := fun (mo d h mi : Nat) => ((mo * 32 + d) * 24 + h) * 60 + mi
  let cur := key c.month c.day c.hour c.minute
  let sspring := key 3 (lastSundayDay c.year 3) 1 0
  let sfall := key 10 (lastSundayDay c.year 10) 2 0
  if sspring ≤ cur && cur < sfall then 60 else 0

/-- Numeric value of a decimal digit character. -/
def digitVal (ch : Char) : Option Nat :=
  if '0' ≤ ch ∧ ch ≤ '9' then some (ch.toNat - 48) else none

/-- Two-digit decimal number. -/
def num2 (a b : Char) : Option Nat :=
  match digitVal a, digitVal b with
  | some x, some y => some (10 * x + y)
  | _, _ => none

/-- Four-digit decimal number. -/
def num4 (a b c d : Char) : Option Nat :=
  match num2 a b, num2 c d with
  | some x, some y => some (100 * x + y)
  | _, _ => none

/-- Seven-digit decimal number (100-nanosecond units of a second). -/
def num7 (a b c d e f g : Char) : Option Nat :=
  match num4 a b c d, num2 e f, digitVal g with
  | some x, some y, some z => some (1000 * x + 10 * y + z)
  | _, _, _ => none

/-- Recognize `DD/MM/YYYY HH:MM`. -/
def parseWallChars (cs : List Char) : Option Civil :=
  match cs with
  | [d1, d2, c1, m1, m2, c2, y1, y2, y3, y4, c3, h1, h2, c4, n1, n2] =>
    if c1 = '/' ∧ c2 = '/' ∧ c3 = ' ' ∧ c4 = ':' then
      match num2 d1 d2, num2 m1 m2, num4 y1 y2 y3 y4, num2 h1 h2, num2 n1 n2 with
      | some d, some mo, some y, some h, some mi =>
        let c : Civil := ⟨y, mo, d, h, mi⟩
        if validCivil c then some c else none
      | _, _, _, _, _ => none
    else none
  | _ => none

/-- Recognize `YYYY-MM-DDTHH:MM:SS.FFFFFFFZ` (explicit UTC designator). -/
def parseIsoChars (cs : List Char) : Option (Civil × Nat × Nat) :=
  match cs with
  | [y1, y2, y3, y4, c1, m1, m2, c2, d1, d2, c3, h1, h2, c4, n1, n2, c5,
     s1, s2, c6, f1, f2, f3, f4, f5, f6, f7, c7] =>
    if c1 = '-' ∧ c2 = '-' ∧ c3 = 'T' ∧ c4 = ':' ∧ c5 = ':' ∧ c6 = '.' ∧ c7 = 'Z' then
      match num4 y1 y2 y3 y4, num2 m1 m2, num2 d1 d2, num2 h1 h2, num2 n1 n2,
          num2 s1 s2, num7 f1 f2 f3 f4 f5 f6 f7 with
      | some y, some mo, some d, some h, some mi, some sec, some frac =>
        let c : Civil := ⟨y, mo, d, h, mi⟩
        if validCivil c ∧ sec < 60 then some (c, sec, frac) else none
      | _, _, _, _, _, _, _ => none
    else none
  | _ => none

/-- The Temporal Normalizer: try the zone-less format (default-zone offset
applied), then the ISO-8601 UTC format (no offset). -/
def parseTimestamp (cs : List Char) : Except String Instant :=
  match parseWallChars cs with
  | some c => Except.ok (toInstant (minutesFromCivil c - ukOffset c) 0 0)
  | none =>
    match parseIsoChars cs with
    | some (c, sec, frac) => Except.ok (toInstant (minutesFromCivil c) sec frac)
    | none => Except.error "Unable to parse timestamp"

/-- Decimal digit character. -/
def dChar (n : Nat) : Char := Char.ofNat (48 + n)

/-- Two-digit zero-padded decimal encoding. -/
def print2 (n : Nat) : List Char := [dChar (n / 10), dChar (n % 10)]

/-- Four-digit zero-padded decimal encoding. -/
def print4 (n : Nat) : List Char :=
  [dChar (n / 1000), dChar (n / 100 % 10), dChar (n / 10 % 10), dChar (n % 10)]

/-- `DD/MM/YYYY HH:MM` encoding of a civil date-time. -/
def formatWall (c : Civil) : List Char :=
  print2 c.day ++ '/' :: print2 c.month ++ '/' :: print4 c.year ++
    ' ' :: print2 c.hour ++ ':' :: print2 c.minute

/-- ISO-8601 UTC encoding of a civil date-time with seconds and 100-ns units. -/
def formatIso (c : Civil) (sec frac : Nat) : List Char :=
  print4 c.year ++ '-' :: print2 c.month ++ '-' :: print2 c.day ++
    'T' :: print2 c.hour ++ ':' :: print2 c.minute ++ ':' :: print2 sec ++
    '.' :: (print4 (frac / 1000) ++ print2 (frac / 10 % 10 * 10 + frac % 10) ++
      [dChar (frac % 10)]) ++ ['Z']

/-! ### Timestamp lemmas -/

theorem digitVal_dChar : ∀ n : Nat, n < 10 → digitVal (dChar n) = some n := by
  decide

theorem num2_print (n : Nat) (h : n < 100) :
    num2 (dChar (n / 10)) (dChar (n % 10)) = some n := by
  rw [num2, digitVal_dChar _ (by omega), digitVal_dChar _ (by omega)]
  exact congrArg some (by omega)

theorem num4_print (n : Nat) (h : n < 10000) :
    num4 (dChar (n / 1000)) (dChar (n / 100 % 10)) (dChar (n / 10 % 10)) (dChar (n % 10))
      = some n := by
  rw [num4, num2, num2, digitVal_dChar _ (by omega), digitVal_dChar _ (by omega),
    digitVal_dChar _ (by omega), digitVal_dChar _ (by omega)]
  exact congrArg some (by omega)

theorem daysInMonth_le_31 (y m : Nat) : daysInMonth y m ≤ 31 := by
  unfold daysInMonth
  split_ifs <;> omega

theorem parseWallChars_formatWall (c : Civil) (h : validCivil c = true) :
    parseWallChars (formatWall c) = some c := by
  obtain ⟨y, mo, d, hh, mi⟩ := c
  have hb : (1 ≤ y ∧ y ≤ 9999) ∧ (1 ≤ mo ∧ mo ≤ 12) ∧
      (1 ≤ d ∧ d ≤ daysInMonth y mo) ∧ hh < 24 ∧ mi < 60 := by
    simpa [validCivil, and_assoc] using h
  have hd : d ≤ 31 := le_trans hb.2.2.1.2 (daysInMonth_le_31 y mo)
  show parseWallChars
      [dChar (d / 10), dChar (d % 10), '/', dChar (mo / 10), dChar (mo % 10), '/',
       dChar (y / 1000), dChar (y / 100 % 10), dChar (y / 10 % 10), dChar (y % 10), ' ',
       dChar (hh / 10), dChar (hh % 10), ':', dChar (mi / 10), dChar (mi % 10)]
    = some ⟨y, mo, d, hh, mi⟩
  rw [parseWallChars]
  rw [if_pos ⟨rfl, rfl, rfl, rfl⟩]
  rw [num2_print d (by omega), num2_print mo (by omega), num4_print y (by omega),
    num2_print hh (by omega), num2_print mi (by omega)]
  show (if validCivil ⟨y, mo, d, hh, mi⟩ then some (⟨y, mo, d, hh, mi⟩ : Civil) else none)
    = some ⟨y, mo, d, hh, mi⟩
  rw [if_pos h]

theorem parseIsoChars_formatIso (c : Civil) (h : validCivil c = true) :
    parseIsoChars (formatIso c 0 0) = some (c, 0, 0) := by
  obtain ⟨y, mo, d, hh, mi⟩ := c
  have hb : (1 ≤ y ∧ y ≤ 9999) ∧ (1 ≤ mo ∧ mo ≤ 12) ∧
      (1 ≤ d ∧ d ≤ daysInMonth y mo) ∧ hh < 24 ∧ mi < 60 := by
    simpa [validCivil, and_assoc] using h
  have hd : d ≤ 31 := le_trans hb.2.2.1.2 (daysInMonth_le_31 y mo)
  show parseIsoChars
      [dChar (y / 1000), dChar (y / 100 % 10), dChar (y / 10 % 10), dChar (y % 10), '-',
       dChar (mo / 10), dChar (mo % 10), '-', dChar (d / 10), dChar (d % 10), 'T',
       dChar (hh / 10), dChar (hh % 10), ':', dChar (mi / 10), dChar (mi % 10), ':',
       dChar 0, dChar 0, '.', dChar 0, dChar 0, dChar 0, dChar 0, dChar 0, dChar 0,
       dChar 0, 'Z']
    = some (⟨y, mo, d, hh, mi⟩, 0, 0)
  rw [parseIsoChars]
  rw [if_pos ⟨rfl, rfl, rfl, rfl, rfl, rfl, rfl⟩]
  rw [num4_print y (by omega), num2_print mo (by omega), num2_print d (by omega),
    num2_print hh (by omega), num2_print mi (by omega)]
  rw [show num2 (dChar 0) (dChar 0) = some 0 from by decide,
    show num7 (dChar 0) (dChar 0) (dChar 0) (dChar 0) (dChar 0) (dChar 0) (dChar 0)
      = some 0 from by decide]
  show (if validCivil ⟨y, mo, d, hh, mi⟩ ∧ (0 : Nat) < 60
      then some ((⟨y, mo, d, hh, mi⟩ : Civil), 0, 0) else none)
    = some (⟨y, mo, d, hh, mi⟩, 0, 0)
  rw [if_pos ⟨h, by omega⟩]

/-- A wall-format string is never 28 characters long, so it cannot collide
with the ISO format; conversely the ISO encoding never matches the
wall-format pattern because it has 28 characters. -/
theorem parseWallChars_formatIso (c : Civil) (sec frac : Nat) :
    parseWallChars (formatIso c sec frac) = none := by
  obtain ⟨y, mo, d, hh, mi⟩ := c
  rfl

/-- Normalizing the zone-less encoding: the default-zone offset is applied. -/
theorem parseTimestamp_formatWall (c : Civil) (h : validCivil c = true) :
    parseTimestamp (formatWall c)
      = Except.ok (toInstant (minutesFromCivil c - ukOffset c) 0 0) := by
  unfold parseTimestamp
  rw [parseWallChars_formatWall c h]

/-- Normalizing the ISO UTC encoding: no offset is applied. -/
theorem parseTimestamp_formatIso (c : Civil) (h : validCivil c = true) :
    parseTimestamp (formatIso c 0 0)
      = Except.ok (toInstant (minutesFromCivil c) 0 0) := by
  unfold parseTimestamp
  rw [parseWallChars_formatIso c 0 0, parseIsoChars_formatIso c h]

/-- C4: for every real-world instant (given by its default-zone wall-clock
civil representation `cLoc` and the corresponding UTC civil representation
`cUtc`, i.e. `minutesFromCivil cUtc = minutesFromCivil cLoc - ukOffset cLoc`),
the Temporal Normalizer maps the `DD/MM/YYYY HH:MM` encoding interpreted in
the default zone and the ISO-8601 UTC encoding with sub-second precision to
equal absolute instants; and the zone-less format resolves to different UTC
offsets on opposite sides of the daylight-saving transition (0 minutes on
2019-03-01, 60 minutes on 2019-06-01). -/
theorem temporal_normalizer_same_instant :
    (∀ cLoc cUtc : Civil, validCivil cLoc = true → validCivil cUtc = true →
        minutesFromCivil cUtc = minutesFromCivil cLoc - ukOffset cLoc →
        parseTimestamp (formatWall cLoc) = parseTimestamp (formatIso cUtc 0 0) ∧
        parseTimestamp (formatIso cUtc 0 0)
          = Except.ok (toInstant (minutesFromCivil cUtc) 0 0)) ∧
    ukOffset ⟨2019, 3, 1, 2, 40⟩ = 0 ∧ ukOffset ⟨2019, 6, 1, 4, 30⟩ = 60 := by
  refine ⟨?_, by decide, by decide⟩
  intro cLoc cUtc hLoc hUtc hrel
  rw [parseTimestamp_formatWall cLoc hLoc, parseTimestamp_formatIso cUtc hUtc, hrel]
  exact ⟨rfl, rfl⟩

/-- Concrete discharge of C4's hypotheses: the BST instant 2019-06-01
04:30 local (= 03:30 UTC) normalizes identically in both encodings. -/
theorem temporal_normalizer_same_instant_witness :
    validCivil ⟨2019, 6, 1, 4, 30⟩ = true ∧ validCivil ⟨2019, 6, 1, 3, 30⟩ = true ∧
    minutesFromCivil ⟨2019, 6, 1, 3, 30⟩
      = minutesFromCivil ⟨2019, 6, 1, 4, 30⟩ - ukOffset ⟨2019, 6, 1, 4, 30⟩ ∧
    parseTimestamp (formatWall ⟨2019, 6, 1, 4, 30⟩)
      = parseTimestamp (formatIso ⟨2019, 6, 1, 3, 30⟩ 0 0) :=
  ⟨by decide, by decide, by decide,
    (temporal_normalizer_same_instant.1 ⟨2019, 6, 1, 4, 30⟩ ⟨2019, 6, 1, 3, 30⟩
      (by decide) (by decide) (by decide)).1⟩

/-! ## Row Parser

Modelled from the spec: one data line is comma-separated with double-quote
wrapping permitted per field; the candidate event has fields timestamp,
event id, fid code, raw indicator field, contra score, request id, client
IP, pid.  Accessing a missing field raises the technical cause message
`list index out of range`, which the Import Session Manager stores
verbatim. -/

/-- Take one CSV field (double-quote wrapping permitted) and return the
rest after the field separator, `none` when the line is exhausted. -/
def takeField (cs : List Char) : List Char × Option (List Char) :=
  match cs with
  | [] => ([], none)
  | c :: rest =>
    if c = '"' then
      let content := rest.takeWhile (· ≠ '"')
      let r2 := (rest.dropWhile (· ≠ '"')).drop 1
      match r2.dropWhile (· ≠ ',') with
      | ',' :: r3 => (content, some r3)
      | _ => (content, none)
    else
      let content := (c :: rest).takeWhile (· ≠ ',')
      match (c :: rest).dropWhile (· ≠ ',') with
      | ',' :: r => (content, some r)
      | _ => (content, none)

/-- Fuelled field-splitting loop (the fuel is an upper bound on the number
of fields of the line). -/
def csvFieldsAux : Nat → List Char → List (List Char)
  | 0, _ => []
  | Nat.succ fuel, cs =>
    match takeField cs with
    | (f, none) => [f]
    | (f, some r) => f :: csvFieldsAux fuel r

/-- Split one CSV line into its fields. -/
def csvFields (cs : List Char) : List (List Char) :=
  csvFieldsAux (cs.length + 1) cs

/-- Decimal value of an all-digit character list. -/
def digitsVal (ds : List Char) : Option Nat :=
  ds.foldl
    (fun acc c =>
      match acc, digitVal c with
      | some a, some v => some (10 * a + v)
      | _, _ => none)
    (some 0)

/-- Parse a (possibly negative) decimal integer. -/
def parseIntChars (cs : List Char) : Option Int :=
  match cs with
  | [] => none
  | c :: rest =>
    if c = '-' then
      if rest.isEmpty then none
      else
        match digitsVal rest with
        | some a => some (-(a : Int))
        | none => none
    else
      match digitsVal (c :: rest) with
      | some a => some ((a : Int))
      | none => none

/-- Contra-score field: blank or whitespace-only defaults to 0; otherwise
parsed as an integer (may be negative). -/
def parseScore (cs : List Char) : Except String Int :=
  let t := trimChars cs
  if t = [] then Except.ok 0
  else
    match parseIntChars t with
    | some n => Except.ok n
    | none => Except.error ("invalid literal for int() with base 10: " ++ t.asString)

/-- A candidate IDP fraud event staged for persistence, with its aggregated
contra-indicator counts. -/
structure IdpFraudEvent where
  timestamp : Instant
  idpEventId : String
  fidCode : String
  rawIndicators : List Char
  contraCounts : List (String × Nat)
  contraScore : Int
  requestId : String
  clientIp : String
  pid : String
deriving DecidableEq

/-- Parse one data line into a candidate event, or fail with the technical
cause as the row's failure message. -/
def parseRow (line : String) : Except String IdpFraudEvent :=
  let fs := csvFields line.toList
  if fs.length < 8 then Except.error "list index out of range"
  else
    match parseTimestamp (fs.getD 0 []) with
    | Except.error e => Except.error e
    | Except.ok ts =>
      match parseScore (fs.getD 4 []) with
      | Except.error e => Except.error e
      | Except.ok score =>
        Except.ok
          { timestamp := ts
            idpEventId := (fs.getD 1 []).asString
            fidCode := (fs.getD 2 []).asString
            rawIndicators := fs.getD 3 []
            contraCounts := aggregate (fs.getD 3 [])
            contraScore := score
            requestId := (fs.getD 5 []).asString
            clientIp := (fs.getD 6 []).asString
            pid := (fs.getD 7 []).asString }

/-! ## Import Session Manager

Modelled from the spec: line 1 is the header and is discarded; each
subsequent line (1-based numbering, first data line = line 2) is parsed
and staged; the first row failure aborts parsing, all staged rows are
discarded, and a fresh unit of work records the session with
`passed_validation = false` and exactly one ValidationFailure row.  On
full success the session is recorded with `passed_validation = true`
together with every staged event. -/

/-- A recorded validation failure row. -/
structure ValidationFailure where
  row : Nat
  field : String
  message : String
deriving DecidableEq

/-- The database rows committed for one processed file. -/
structure ImportResult where
  sessions : List Bool
  events : List IdpFraudEvent
  failures : List ValidationFailure
deriving DecidableEq

/-- Failure-category label of single-row validation failures. -/
def ROW_EXCEPTION_FIELD : String := "**Row Exception**"

/-- Wrap a row failure cause the way the Import Session Manager captures it. -/
def wrapRowError (n : Nat) (msg : String) : String :=
  "Failed to store IDP fraud event: " ++ msg ++ " (line " ++ toString n ++ ")"

/-- Parse and stage the data lines, numbering them from `n`; stop at the
first failing line with its number and captured message. -/
def processLines : List String → Nat → Except (Nat × String) (List IdpFraudEvent)
  | [], _ => Except.ok []
  | l :: rest, n =>
    match parseRow l with
    | Except.error msg => Except.error (n, wrapRowError n msg)
    | Except.ok ev =>
      match processLines rest (n + 1) with
      | Except.error f => Except.error f
      | Except.ok evs => Except.ok (ev :: evs)

/-- Import one file, given as its list of lines (line 1 is the header). -/
def importFile (fileLines : List String) : ImportResult :=
  match processLines (fileLines.drop 1) 2 with
  | Except.ok evs => { sessions := [true], events := evs, failures := [] }
  | Except.error (n, msg) =>
    { sessions := [false], events := [],
      failures := [{ row := n, field := ROW_EXCEPTION_FIELD, message := msg }] }

/-- Whether the single recorded session passed validation. -/
def ImportResult.passed (r : ImportResult) : Bool :=
  decide (r.sessions = [true])

/-! ## Relocation Step

Modelled from the spec: after the Import Session Manager concludes, the
source object is moved (copied to the destination key, then the original
key is deleted) to a success or error destination keyed by the original
object's base file name. -/

def SUCCESS_FOLDER : String := "success"

def ERROR_FOLDER : String := "error"

/-- Base file name of an object key (the part after the last `/`). -/
def basename (key : String) : String :=
  ((key.toList.reverse.takeWhile (· ≠ '/')).reverse).asString

/-- Copy an object to `dest`, then delete the original `key`, in a bucket
modelled as its list of object keys. -/
def moveObject (keys : List String) (key dest : String) : List String :=
  (keys.insert dest).filter (· ≠ key)

/-- Destination key of a processed file. -/
def destKey (key : String) (passed : Bool) : String :=
  (if passed then SUCCESS_FOLDER else ERROR_FOLDER) ++ "/" ++ basename key

/-- Relocate the source object according to the import outcome. -/
def relocate (keys : List String) (key : String) (passed : Bool) : List String :=
  moveObject keys key (destKey key passed)

/-- Whole-file handling: import the lines, then relocate the source object. -/
def handleFile (keys : List String) (key : String) (fileLines : List String) :
    ImportResult × List String :=
  let r := importFile fileLines
  (r, relocate keys key r.passed)

/-! ### Decimal integer encoding (for the contra-score round trip) -/

/-- Decimal digit expansion of a natural number. -/
def natToDigits (n : Nat) : List Char :=
  if n < 10 then [dChar n]
  else natToDigits (n / 10) ++ [dChar (n % 10)]
termination_by n
decreasing_by exact Nat.div_lt_self (by omega) (by omega)

/-- Canonical decimal encoding of an integer. -/
def intToChars (n : Int) : List Char :=
  if n < 0 then '-' :: natToDigits n.natAbs else natToDigits n.natAbs

theorem natToDigits_ne_nil (n : Nat) : natToDigits n ≠ [] := by
  rw [natToDigits]
  split
  · exact List.cons_ne_nil _ _
  · exact fun h => absurd (List.append_eq_nil.1 h).2 (List.cons_ne_nil _ _)

theorem natToDigits_chars (n : Nat) :
    ∀ c ∈ natToDigits n, ∃ k, k < 10 ∧ c = dChar k := by
  induction n using Nat.strong_induction_on with
  | _ n ih =>
    intro c hc
    rw [natToDigits] at hc
    split at hc
    · rcases List.mem_singleton.1 hc with rfl
      exact ⟨n, by omega, rfl⟩
    · rcases List.mem_append.1 hc with h | h
      · exact ih (n / 10) (Nat.div_lt_self (by omega) (by omega)) c h
      · rcases List.mem_singleton.1 h with rfl
        exact ⟨n % 10, by omega, rfl⟩

theorem natToDigits_head (n : Nat) :
    ∃ k rest, k < 10 ∧ natToDigits n = dChar k :: rest := by
  induction n using Nat.strong_induction_on with
  | _ n ih =>
    rw [natToDigits]
    split
    · exact ⟨n, [], by omega, rfl⟩
    · obtain ⟨k, rest, hk, heq⟩ := ih (n / 10) (Nat.div_lt_self (by omega) (by omega))
      exact ⟨k, rest ++ [dChar (n % 10)], hk, by rw [heq]; rfl⟩

theorem digitsVal_append_digit (ds : List Char) (c : Char) :
    digitsVal (ds ++ [c]) =
      match digitsVal ds, digitVal c with
      | some a, some v => some (10 * a + v)
      | _, _ => none := by
  simp [digitsVal, List.foldl_append]

theorem digitsVal_natToDigits (n : Nat) : digitsVal (natToDigits n) = some n := by
  induction n using Nat.strong_induction_on with
  | _ n ih =>
    rw [natToDigits]
    split
    · rename_i h
      show digitsVal [dChar n] = some n
      rw [show digitsVal [dChar n] =
          (match (some 0 : Option Nat), digitVal (dChar n) with
           | some a, some v => some (10 * a + v)
           | _, _ => none) from rfl,
        digitVal_dChar n h]
      exact congrArg some (by omega)
    · rename_i h
      rw [digitsVal_append_digit, ih (n / 10) (Nat.div_lt_self (by omega) (by omega)),
        digitVal_dChar (n % 10) (by omega)]
      exact congrArg some (by omega)

theorem dChar_ne_dash : ∀ k : Nat, k < 10 → dChar k ≠ '-' := by decide

theorem parseIntChars_intToChars (n : Int) : parseIntChars (intToChars n) = some n := by
  by_cases hn : n < 0
  · rw [intToChars, if_pos hn]
    obtain ⟨k, rest, hk, heq⟩ := natToDigits_head n.natAbs
    rw [parseIntChars, if_pos rfl, heq]
    rw [if_neg (by rw [show (dChar k :: rest).isEmpty = false from rfl]; simp)]
    rw [← heq, digitsVal_natToDigits]
    exact congrArg some (by omega)
  · rw [intToChars, if_neg hn]
    obtain ⟨k, rest, hk, heq⟩ := natToDigits_head n.natAbs
    rw [heq, parseIntChars, if_neg (dChar_ne_dash k hk), ← heq, digitsVal_natToDigits]
    exact congrArg some (by omega)

theorem dropWhile_eq_self_of_not (p : Char → Bool) (cs : List Char)
    (h : ∀ c ∈ cs, p c = false) : cs.dropWhile p = cs := by
  cases cs with
  | nil => rfl
  | cons c rest =>
    exact List.dropWhile_cons_of_neg (by simp [h c (List.mem_cons_self c rest)])

theorem trimChars_eq_self (cs : List Char) (h : ∀ c ∈ cs, isWs c = false) :
    trimChars cs = cs := by
  unfold trimChars
  rw [dropWhile_eq_self_of_not _ _ h,
    dropWhile_eq_self_of_not _ _ (fun c hc => h c (List.mem_reverse.1 hc)),
    List.reverse_reverse]

theorem isWs_dChar : ∀ k : Nat, k < 10 → isWs (dChar k) = false := by decide

theorem intToChars_not_ws (n : Int) : ∀ c ∈ intToChars n, isWs c = false := by
  intro c hc
  rw [intToChars] at hc
  split at hc
  · rcases List.mem_cons.1 hc with rfl | h
    · rfl
    · obtain ⟨k, hk, rfl⟩ := natToDigits_chars n.natAbs c h
      exact isWs_dChar k hk
  · obtain ⟨k, hk, rfl⟩ := natToDigits_chars n.natAbs c hc
    exact isWs_dChar k hk

theorem intToChars_ne_nil (n : Int) : intToChars n ≠ [] := by
  rw [intToChars]
  split
  · exact List.cons_ne_nil _ _
  · exact natToDigits_ne_nil n.natAbs

/-- Round trip: the canonical decimal encoding of any integer parses back
to that integer as a contra score. -/
theorem parseScore_intToChars (n : Int) : parseScore (intToChars n) = Except.ok n := by
  rw [parseScore]
  simp only [trimChars_eq_self _ (intToChars_not_ws n)]
  rw [if_neg (intToChars_ne_nil n), parseIntChars_intToChars n]

/-- Blank or whitespace-only contra-score fields default to 0. -/
theorem parseScore_ws (cs : List Char) (h : ∀ c ∈ cs, isWs c = true) :
    parseScore cs = Except.ok 0 := by
  rw [parseScore]
  simp [trimChars_eq_nil_of_ws cs h]

/-! ### Import Session Manager lemmas -/

theorem parseRow_contraCounts (l : String) (ev : IdpFraudEvent)
    (h : parseRow l = Except.ok ev) :
    ev.contraCounts = aggregate ev.rawIndicators := by
  simp only [parseRow] at h
  split at h
  · exact absurd h (by simp)
  · split at h
    · exact absurd h (by simp)
    · split at h
      · exact absurd h (by simp)
      · cases h
        rfl

theorem processLines_first_error (lines : List String) (n i : Nat)
    (hi : i < lines.length) (msg : String)
    (hfail : parseRow (lines.get ⟨i, hi⟩) = Except.error msg)
    (hok : ∀ j (hj : j < i), ∃ ev, parseRow (lines.get ⟨j, by omega⟩) = Except.ok ev) :
    processLines lines n = Except.error (n + i, wrapRowError (n + i) msg) := by
  induction lines generalizing n i with
  | nil => exact absurd hi (by simp)
  | cons l rest ih =>
    cases i with
    | zero =>
      have hfail' : parseRow l = Except.error msg := hfail
      simp [processLines, hfail']
    | succ i' =>
      obtain ⟨ev, hev⟩ := hok 0 (Nat.succ_pos i')
      have hev' : parseRow l = Except.ok ev := hev
      have hrec := ih (n + 1) i' (by simpa using hi) hfail
        (fun j hj => hok (j + 1) (by omega))
      simp [processLines, hev', hrec, show n + 1 + i' = n + (i' + 1) from by omega]

theorem processLines_all_ok (lines : List String) (n : Nat)
    (hok : ∀ j (hj : j < lines.length), ∃ ev, parseRow (lines.get ⟨j, hj⟩) = Except.ok ev) :
    ∃ evs, processLines lines n = Except.ok evs ∧ evs.length = lines.length ∧
      ∀ j (hj : j < lines.length) (hj' : j < evs.length),
        parseRow (lines.get ⟨j, hj⟩) = Except.ok (evs.get ⟨j, hj'⟩) := by
  induction lines generalizing n with
  | nil => exact ⟨[], rfl, rfl, fun j hj => absurd hj (by simp)⟩
  | cons l rest ih =>
    obtain ⟨ev, hev⟩ := hok 0 (by simp)
    obtain ⟨evs, h1, h2, h3⟩ := ih (n + 1) (fun j hj => hok (j + 1) (by simpa using hj))
    refine ⟨ev :: evs, ?_, by simpa using h2, ?_⟩
    · have hev' : parseRow l = Except.ok ev := hev
      simp [processLines, hev', h1]
    · intro j hj hj'
      cases j with
      | zero => exact hev
      | succ j' => exact h3 j' (by simpa using hj) (by simpa using hj')

/-- C1: for every input file in which some data line fails (the first
failing data line has index `i`, every earlier one parses), the import
records zero FraudEvent rows (and hence zero ContraIndicatorCount rows),
exactly one ImportSession with `passed_validation = false`, and exactly
one ValidationFailure whose row is the failing line's 1-based number
(header = line 1, so data line `i` is line `i + 2`), whose field is
`**Row Exception**` and whose message is the captured failure message
verbatim. -/
theorem import_failure_records_single_validation_failure
    (header : String) (dataLines : List String) (i : Nat)
    (hi : i < dataLines.length) (msg : String)
    (hfail : parseRow (dataLines.get ⟨i, hi⟩) = Except.error msg)
    (hok : ∀ j (hj : j < i), ∃ ev, parseRow (dataLines.get ⟨j, by omega⟩) = Except.ok ev) :
    importFile (header :: dataLines)
      = { sessions := [false], events := [],
          failures := [{ row := i + 2, field := ROW_EXCEPTION_FIELD,
                         message := wrapRowError (i + 2) msg }] } := by
  rw [importFile, show (header :: dataLines).drop 1 = dataLines from rfl,
    processLines_first_error dataLines 2 i hi msg hfail hok]
  have h2i : 2 + i = i + 2 := by omega
  rw [h2i]

/-- Concrete discharge of C1's hypotheses: a file whose second data line
is missing fields yields no events and one row-2+1 validation failure. -/
theorem import_failure_records_single_validation_failure_witness :
    importFile
      ["Event Time,Event ID,FID code,Contra Indicators,Contra Score, Request ID, Client IP Address, PID",
       "\"05/08/2019 11:54\",\"1111111\",\"DF01\",\"A04,D02\",-5,\"_r1\",\"1.1.1.1\",\"p1\"",
       "\"01/01/2019 11:00\",,,"]
      = { sessions := [false], events := [],
          failures := [{ row := 3, field := ROW_EXCEPTION_FIELD,
                         message := wrapRowError 3 "list index out of range" }] } :=
  import_failure_records_single_validation_failure
    "Event Time,Event ID,FID code,Contra Indicators,Contra Score, Request ID, Client IP Address, PID"
    ["\"05/08/2019 11:54\",\"1111111\",\"DF01\",\"A04,D02\",-5,\"_r1\",\"1.1.1.1\",\"p1\"",
     "\"01/01/2019 11:00\",,,"]
    1 (by decide) "list index out of range" (by rfl)
    (by
      intro j hj
      interval_cases j
      exact ⟨_, rfl⟩)

/-- C2: for every file whose data lines all parse, the import commits
exactly one ImportSession with `passed_validation = true`, no validation
failures, one FraudEvent per data line (in order), and each event's
ContraIndicatorCount rows have counts summing to the number of non-blank
trimmed tokens of that row's original indicator list. -/
theorem import_valid_file_commits_all_rows
    (header : String) (dataLines : List String)
    (hok : ∀ j (hj : j < dataLines.length),
      ∃ ev, parseRow (dataLines.get ⟨j, hj⟩) = Except.ok ev) :
    ∃ evs, importFile (header :: dataLines)
        = { sessions := [true], events := evs, failures := [] } ∧
      evs.length = dataLines.length ∧
      (∀ j (hj : j < dataLines.length) (hj' : j < evs.length),
        parseRow (dataLines.get ⟨j, hj⟩) = Except.ok (evs.get ⟨j, hj'⟩)) ∧
      ∀ ev ∈ evs, sumCounts ev.contraCounts = (cleanTokens ev.rawIndicators).length := by
  obtain ⟨evs, h1, h2, h3⟩ := processLines_all_ok dataLines 2 hok
  refine ⟨evs, ?_, h2, h3, ?_⟩
  · rw [importFile, show (header :: dataLines).drop 1 = dataLines from rfl, h1]
  · intro ev hev
    obtain ⟨⟨j, hj'⟩, rfl⟩ := List.mem_iff_get.1 hev
    have hp := h3 j (by omega) hj'
    rw [parseRow_contraCounts _ _ hp, sumCounts_aggregate]

/-- Concrete discharge of C2's hypotheses on a one-data-line file. -/
theorem import_valid_file_commits_all_rows_witness :
    ∃ evs,
      importFile
        ["Event Time,Event ID,FID code,Contra Indicators,Contra Score, Request ID, Client IP Address, PID",
         "\"05/08/2019 11:54\",\"1111111\",\"DF01\",\"A04,D02\",-5,\"_r1\",\"1.1.1.1\",\"p1\""]
        = { sessions := [true], events := evs, failures := [] } ∧
      evs.length = 1 ∧
      (∀ j (hj : j < ([
        "\"05/08/2019 11:54\",\"1111111\",\"DF01\",\"A04,D02\",-5,\"_r1\",\"1.1.1.1\",\"p1\""] :
          List String).length) (hj' : j < evs.length),
        parseRow ((["\"05/08/2019 11:54\",\"1111111\",\"DF01\",\"A04,D02\",-5,\"_r1\",\"1.1.1.1\",\"p1\""] :
          List String).get ⟨j, hj⟩) = Except.ok (evs.get ⟨j, hj'⟩)) ∧
      ∀ ev ∈ evs, sumCounts ev.contraCounts = (cleanTokens ev.rawIndicators).length :=
  import_valid_file_commits_all_rows
    "Event Time,Event ID,FID code,Contra Indicators,Contra Score, Request ID, Client IP Address, PID"
    ["\"05/08/2019 11:54\",\"1111111\",\"DF01\",\"A04,D02\",-5,\"_r1\",\"1.1.1.1\",\"p1\""]
    (by
      intro j hj
      have hj0 : j = 0 := by simp only [List.length_cons, List.length_nil] at hj; omega
      subst hj0
      exact ⟨_, rfl⟩)

/-- C3: the aggregator's output equals the result of splitting on the
delimiter, trimming each token, discarding empty tokens, grouping the
remaining tokens by exact (case-sensitive) code and counting occurrences
per code (`cleanTokens` is exactly split-trim-discard); read-back
enumerates the pairs in ascending code order; and the concrete list
`A01,A05,V03,A05,A05,A05` yields exactly `A01:1, A05:4, V03:1`. -/
theorem aggregator_groups_and_counts_by_code :
    (∀ cs : List Char,
      (∀ c : String, entryFor (aggregate cs) c = (cleanTokens cs).count c) ∧
      (∀ c : String, c ∈ keysOf (aggregate cs) ↔ c ∈ cleanTokens cs) ∧
      (keysOf (aggregate cs)).Sorted (fun a b => strLt a b = true)) ∧
    aggregateS "A01,A05,V03,A05,A05,A05" = [("A01", 1), ("A05", 4), ("V03", 1)] := by
  refine ⟨fun cs => ⟨entryFor_aggregate cs, mem_keys_aggregate cs, sorted_aggregate cs⟩, ?_⟩
  decide

/-- C5: the aggregated (code, count) pairs are identical whether the
indicator sub-field uses comma, line-feed, or carriage-return-line-feed
as its separator. -/
theorem aggregator_delimiter_invariant (toks : List (List Char))
    (h : ∀ t ∈ toks, tokenOk t) :
    aggregate (joinSep [','] toks) = aggregate (joinSep ['\n'] toks) ∧
    aggregate (joinSep [','] toks) = aggregate (joinSep ['\r', '\n'] toks) :=
  ⟨aggregate_joinSep_sep_invariant toks h [','] ['\n'] (Or.inl rfl) (Or.inr (Or.inl rfl)),
   aggregate_joinSep_sep_invariant toks h [','] ['\r', '\n'] (Or.inl rfl)
     (Or.inr (Or.inr rfl))⟩

/-- Concrete discharge of C5's hypotheses on the logical list [A04, D02]. -/
theorem aggregator_delimiter_invariant_witness :
    (∀ t ∈ [['A', '0', '4'], ['D', '0', '2']], tokenOk t) ∧
    aggregate (joinSep [','] [['A', '0', '4'], ['D', '0', '2']])
      = aggregate (joinSep ['\n'] [['A', '0', '4'], ['D', '0', '2']]) ∧
    aggregate (joinSep [','] [['A', '0', '4'], ['D', '0', '2']])
      = aggregate (joinSep ['\r', '\n'] [['A', '0', '4'], ['D', '0', '2']]) :=
  have h : ∀ t ∈ [['A', '0', '4'], ['D', '0', '2']], tokenOk t := by decide
  ⟨h, (aggregator_delimiter_invariant _ h).1, (aggregator_delimiter_invariant _ h).2⟩

/-- C6: a blank or whitespace-only indicator list aggregates to zero
ContraIndicatorCount rows; a blank or whitespace-only contra-score field
is stored as 0; a non-blank score is parsed as a possibly negative
integer (round trip on the canonical decimal encoding); and the whole
row parser accepts a data row with empty indicator and score fields,
producing zero indicator counts and score 0. -/
theorem blank_indicator_lists_and_scores
    (raw s : List Char) (hraw : ∀ c ∈ raw, isWs c = true)
    (hs : ∀ c ∈ s, isWs c = true) :
    aggregate raw = [] ∧ parseScore s = Except.ok 0 ∧
    (∀ n : Int, parseScore (intToChars n) = Except.ok n) ∧
    (∃ ev, parseRow
        "2019-01-20T18:30:15.1110000Z,5555555,DF01,,,_req5555555,111.111.111.111,pid5555555"
        = Except.ok ev ∧ ev.contraCounts = [] ∧ ev.contraScore = 0) :=
  ⟨aggregate_eq_nil_of_ws raw hraw, parseScore_ws s hs, parseScore_intToChars,
    ⟨_, rfl, rfl, rfl⟩⟩

/-- Concrete discharge of C6's hypotheses: two spaces as indicator list,
the empty field as score. -/
theorem blank_indicator_lists_and_scores_witness :
    (∀ c ∈ [' ', ' '], isWs c = true) ∧
    aggregate [' ', ' '] = [] ∧ parseScore [] = Except.ok 0 ∧
    parseScore (intToChars (-5)) = Except.ok (-5) :=
  have h1 : ∀ c ∈ [' ', ' '], isWs c = true := by decide
  have h2 : ∀ c ∈ ([] : List Char), isWs c = true := by decide
  ⟨h1, (blank_indicator_lists_and_scores [' ', ' '] [] h1 h2).1,
    (blank_indicator_lists_and_scores [' ', ' '] [] h1 h2).2.1,
    (blank_indicator_lists_and_scores [' ', ' '] [] h1 h2).2.2.1 (-5)⟩

/-- C7: after the Relocation Step the source object no longer exists at
its original key; it exists under the success prefix when the import
passed and under the error prefix otherwise, keyed by the original
object's base file name. -/
theorem relocation_moves_source_object (keys : List String) (key : String)
    (fileLines : List String) (hkey : ∀ b : Bool, destKey key b ≠ key) :
    key ∉ (handleFile keys key fileLines).2 ∧
    destKey key (handleFile keys key fileLines).1.passed ∈ (handleFile keys key fileLines).2 ∧
    destKey key true = SUCCESS_FOLDER ++ "/" ++ basename key ∧
    destKey key false = ERROR_FOLDER ++ "/" ++ basename key := by
  refine ⟨?_, ?_, rfl, rfl⟩
  · intro hmem
    have hp := List.mem_filter.1 hmem
    simp at hp
  · apply List.mem_filter.2
    exact ⟨List.mem_insert_self _ _, by simp [hkey _]⟩

/-- Concrete discharge of C7's hypotheses on the test's object key. -/
theorem relocation_moves_source_object_witness :
    (∀ b : Bool, destKey "idp-data.csv" b ≠ "idp-data.csv") ∧
    "idp-data.csv" ∉ (handleFile ["idp-data.csv"] "idp-data.csv" []).2 ∧
    destKey "idp-data.csv" (handleFile ["idp-data.csv"] "idp-data.csv" []).1.passed
      ∈ (handleFile ["idp-data.csv"] "idp-data.csv" []).2 :=
  have h : ∀ b : Bool, destKey "idp-data.csv" b ≠ "idp-data.csv" := by decide
  ⟨h, (relocation_moves_source_object ["idp-data.csv"] "idp-data.csv" [] h).1,
    (relocation_moves_source_object ["idp-data.csv"] "idp-data.csv" [] h).2.1⟩

/-! ## Queue consumer (embedded from `src/event_handler.py`)

`store_queued_events` obtains a decryption key (from the `ENCRYPTION_KEY`
environment variable, falling back to an object-storage fetch), decrypts
it, opens a database connection, and then loops: fetch one message, and —
inside a catch-all — decrypt it, map it to a typed event, write an audit
record, conditionally write billing / fraud records, and delete the
message from the queue.  Any failure while processing a single message is
caught and logged; the loop ends when the queue reports empty.  The
collaborator functions (`decrypt_message`, `event_from_json`, the
database writers) live in modules not present in the sources and are
parameters of the embedding. -/

structure Event where
  event_id : String
  event_type : String
  details : List (String × String)
deriving DecidableEq

/-- `event.details.get(k)` in the Python source. -/
def Event.getDetail (e : Event) (k : String) : Option String :=
  (e.details.find? (fun p => p.1 == k)).map (fun p => p.2)

structure Message where
  body : String
deriving DecidableEq

inductive DbRecord where
  | audit (e : Event)
  | billing (e : Event)
  | fraud (e : Event)
deriving DecidableEq

abbrev DB := List DbRecord

/-- Externally visible side effects of handling one message, in order. -/
inductive Action where
  | auditWrite (id : String)
  | billingWrite (id : String)
  | fraudWrite (id : String)
  | deleteFromQueue
deriving DecidableEq

/-- The collaborator functions imported by `event_handler.py` from modules
not present in the sources; each may raise (modelled as `Except`). -/
structure Env where
  decrypt_message : String → String → Except String String
  event_from_json : String → Except String Event
  write_audit_event_to_database : Event → DB → Except String DB
  write_billing_event_to_database : Event → DB → Except String DB
  write_fraud_event_to_database : Event → DB → Except String DB

/-- `event.event_type == 'session_event' and
event.details.get('session_event_type') == 'idp_authn_succeeded'`. -/
def isBillingEvent (e : Event) : Prop :=
  e.event_type = "session_event" ∧
    e.getDetail "session_event_type" = some "idp_authn_succeeded"

instance (e : Event) : Decidable (isBillingEvent e) := by
  unfold isBillingEvent
  infer_instance

/-- `event.event_type == 'session_event' and
event.details.get('session_event_type') == 'fraud_detected'`. -/
def isFraudEvent (e : Event) : Prop :=
  e.event_type = "session_event" ∧
    e.getDetail "session_event_type" = some "fraud_detected"

instance (e : Event) : Decidable (isFraudEvent e) := by
  unfold isFraudEvent
  infer_instance

/-- The billing and fraud sub-type checks are mutually exclusive. -/
theorem not_billing_and_fraud (e : Event) (hb : isBillingEvent e)
    (hf : isFraudEvent e) : False := by
  obtain ⟨-, h1⟩ := hb
  obtain ⟨-, h2⟩ := hf
  rw [h1] at h2
  exact absurd (Option.some.inj h2) (by decide)

/-- Result of one iteration body (the `try` block). -/
structure StepResult where
  db : DB
  actions : List Action
  deleted : Bool
  log : List String
deriving DecidableEq

/-- The conditional billing write. -/
def billingStep (env : Env) (ev : Event) (db : DB) :
    Except String (DB × List Action × List String) :=
  if isBillingEvent ev then
    match env.write_billing_event_to_database ev db with
    | Except.error e => Except.error e
    | Except.ok db2 =>
      Except.ok (db2, [Action.billingWrite ev.event_id],
        ["Stored billing event: " ++ ev.event_id])
  else Except.ok (db, [], [])

/-- The conditional fraud write. -/
def fraudStep (env : Env) (ev : Event) (db : DB) :
    Except String (DB × List Action × List String) :=
  if isFraudEvent ev then
    match env.write_fraud_event_to_database ev db with
    | Except.error e => Except.error e
    | Except.ok db2 =>
      Except.ok (db2, [Action.fraudWrite ev.event_id],
        ["Stored fraud event: " ++ ev.event_id])
  else Except.ok (db, [], [])

/-- One iteration body of the consumer loop: decrypt, map, write audit,
conditionally write billing and fraud, delete from queue; any raise is
caught and logged (`deleted = false`, the message is not removed). -/
def processMessage (env : Env) (key : String) (db : DB) (m : Message) : StepResult :=
  match env.decrypt_message m.body key with
  | Except.error _ => ⟨db, [], false, ["Failed to store message"]⟩
  | Except.ok dec =>
    match env.event_from_json dec with
    | Except.error _ => ⟨db, [], false, ["Failed to store message"]⟩
    | Except.ok ev =>
      match env.write_audit_event_to_database ev db with
      | Except.error _ =>
        ⟨db, [], false,
          ["Decrypted event with ID: " ++ ev.event_id, "Failed to store message"]⟩
      | Except.ok db1 =>
        match billingStep env ev db1 with
        | Except.error _ =>
          ⟨db1, [Action.auditWrite ev.event_id], false,
            ["Decrypted event with ID: " ++ ev.event_id,
             "Stored audit event: " ++ ev.event_id, "Failed to store message"]⟩
        | Except.ok (db2, acts2, log3) =>
          match fraudStep env ev db2 with
          | Except.error _ =>
            ⟨db2, [Action.auditWrite ev.event_id] ++ acts2, false,
              ["Decrypted event with ID: " ++ ev.event_id,
               "Stored audit event: " ++ ev.event_id] ++ log3 ++
                ["Failed to store message"]⟩
          | Except.ok (db3, acts4, log4) =>
            ⟨db3, [Action.auditWrite ev.event_id] ++ acts2 ++ acts4 ++
                [Action.deleteFromQueue], true,
              ["Decrypted event with ID: " ++ ev.event_id,
               "Stored audit event: " ++ ev.event_id] ++ log3 ++ log4 ++
                ["Deleted event from queue with ID: " ++ ev.event_id]⟩

/-- Result of the whole fetch-process loop. -/
structure LoopResult where
  db : DB
  eventCount : Nat
  log : List String
  remaining : List Message
deriving DecidableEq

/-- The consumer loop: fetch one message at a time until the queue reports
empty; failed messages are not deleted and stay available for retry. -/
def runLoop (env : Env) (key : String) : List Message → DB → Nat → LoopResult
  | [], db, n =>
    ⟨db, n, ["Queue is empty - finishing after " ++ toString n ++ " events"], []⟩
  | m :: rest, db, n =>
    let r := processMessage env key db m
    let rr := runLoop env key rest r.db (n + 1)
    ⟨rr.db, rr.eventCount, r.log ++ rr.log,
      (if r.deleted then [] else [m]) ++ rr.remaining⟩

/-- Database state after processing a list of messages in order. -/
def dbAfter (env : Env) (key : String) : List Message → DB → DB
  | [], db => db
  | m :: rest, db => dbAfter env key rest (processMessage env key db m).db

/-- Key sourcing of `store_queued_events`: the `ENCRYPTION_KEY`
environment variable when set, otherwise an object-storage fetch; the
encrypted key is then decrypted through the key-management service. -/
structure Config where
  encryptionKeyEnv : Option String
  fetchedKey : String
  kmsDecrypt : String → String

def obtainDecryptionKey (cfg : Config) : String :=
  match cfg.encryptionKeyEnv with
  | some k => cfg.kmsDecrypt k
  | none => cfg.kmsDecrypt cfg.fetchedKey

/-- `store_queued_events`: obtain the key and drive the loop from count 0. -/
def store_queued_events (env : Env) (cfg : Config) (queue : List Message) (db : DB) :
    LoopResult :=
  runLoop env (obtainDecryptionKey cfg) queue db 0

/-! ### Queue consumer lemmas -/

theorem runLoop_eventCount (env : Env) (key : String) :
    ∀ (q : List Message) (db : DB) (n : Nat),
      (runLoop env key q db n).eventCount = n + q.length := by
  intro q
  induction q with
  | nil => intro db n; simp [runLoop]
  | cons m rest ih =>
    intro db n
    show (runLoop env key rest (processMessage env key db m).db (n + 1)).eventCount
      = n + (m :: rest).length
    rw [ih]
    simp
    omega

theorem runLoop_log_ne_nil (env : Env) (key : String) :
    ∀ (q : List Message) (db : DB) (n : Nat), (runLoop env key q db n).log ≠ [] := by
  intro q
  induction q with
  | nil => intro db n; simp [runLoop]
  | cons m rest ih =>
    intro db n h
    rw [show (runLoop env key (m :: rest) db n).log
      = (processMessage env key db m).log
        ++ (runLoop env key rest (processMessage env key db m).db (n + 1)).log
      from rfl] at h
    exact ih _ _ (List.append_eq_nil.1 h).2

theorem runLoop_log_getLast (env : Env) (key : String) :
    ∀ (q : List Message) (db : DB) (n : Nat),
      (runLoop env key q db n).log.getLast?
        = some ("Queue is empty - finishing after " ++ toString (n + q.length)
            ++ " events") := by
  intro q
  induction q with
  | nil => intro db n; simp [runLoop]
  | cons m rest ih =>
    intro db n
    rw [show (runLoop env key (m :: rest) db n).log
      = (processMessage env key db m).log
        ++ (runLoop env key rest (processMessage env key db m).db (n + 1)).log
      from rfl]
    rw [List.getLast?_append_of_ne_nil _ (runLoop_log_ne_nil env key rest _ (n + 1)), ih]
    rw [show n + 1 + rest.length = n + (m :: rest).length from by simp; omega]

theorem processMessage_deleted_or_logged (env : Env) (key : String) (db : DB)
    (m : Message) :
    (processMessage env key db m).deleted = true ∨
    "Failed to store message" ∈ (processMessage env key db m).log := by
  unfold processMessage
  split
  · right; simp
  · split
    · right; simp
    · split
      · right; simp
      · split
        · right; simp
        · split
          · right; simp
          · left; rfl

theorem processMessage_failed_logged (env : Env) (key : String) (db : DB)
    (m : Message) (h : (processMessage env key db m).deleted = false) :
    "Failed to store message" ∈ (processMessage env key db m).log := by
  rcases processMessage_deleted_or_logged env key db m with h1 | h1
  · rw [h] at h1
    exact absurd h1 (by simp)
  · exact h1

theorem mem_log_runLoop (env : Env) (key : String) :
    ∀ (pre : List Message) (m : Message) (post : List Message) (db : DB) (n : Nat)
      (s : String),
      s ∈ (processMessage env key (dbAfter env key pre db) m).log →
      s ∈ (runLoop env key (pre ++ m :: post) db n).log := by
  intro pre
  induction pre with
  | nil =>
    intro m post db n s hs
    rw [show (runLoop env key ([] ++ m :: post) db n).log
      = (processMessage env key db m).log
        ++ (runLoop env key post (processMessage env key db m).db (n + 1)).log
      from rfl]
    exact List.mem_append.2 (Or.inl hs)
  | cons p pre ih =>
    intro m post db n s hs
    rw [show (runLoop env key ((p :: pre) ++ m :: post) db n).log
      = (processMessage env key db p).log
        ++ (runLoop env key (pre ++ m :: post) (processMessage env key db p).db (n + 1)).log
      from rfl]
    exact List.mem_append.2 (Or.inr (ih m post (processMessage env key db p).db (n + 1) s hs))

theorem mem_remaining_runLoop (env : Env) (key : String) :
    ∀ (pre : List Message) (m : Message) (post : List Message) (db : DB) (n : Nat),
      (processMessage env key (dbAfter env key pre db) m).deleted = false →
      m ∈ (runLoop env key (pre ++ m :: post) db n).remaining := by
  intro pre
  induction pre with
  | nil =>
    intro m post db n h
    rw [show (runLoop env key ([] ++ m :: post) db n).remaining
      = (if (processMessage env key db m).deleted then [] else [m])
        ++ (runLoop env key post (processMessage env key db m).db (n + 1)).remaining
      from rfl]
    rw [show (dbAfter env key [] db) = db from rfl] at h
    rw [h]
    simp
  | cons p pre ih =>
    intro m post db n h
    rw [show (runLoop env key ((p :: pre) ++ m :: post) db n).remaining
      = (if (processMessage env key db p).deleted then [] else [p])
        ++ (runLoop env key (pre ++ m :: post) (processMessage env key db p).db
            (n + 1)).remaining
      from rfl]
    exact List.mem_append.2 (Or.inr (ih m post (processMessage env key db p).db (n + 1) h))

theorem billingStep_pos (env : Env) (ev : Event) (db : DB) (hb : isBillingEvent ev)
    (db2 : DB) (h : env.write_billing_event_to_database ev db = Except.ok db2) :
    billingStep env ev db
      = Except.ok (db2, [Action.billingWrite ev.event_id],
          ["Stored billing event: " ++ ev.event_id]) := by
  rw [billingStep, if_pos hb, h]

theorem billingStep_neg (env : Env) (ev : Event) (db : DB) (hb : ¬isBillingEvent ev) :
    billingStep env ev db = Except.ok (db, [], []) := by
  rw [billingStep, if_neg hb]

theorem fraudStep_pos (env : Env) (ev : Event) (db : DB) (hf : isFraudEvent ev)
    (db2 : DB) (h : env.write_fraud_event_to_database ev db = Except.ok db2) :
    fraudStep env ev db
      = Except.ok (db2, [Action.fraudWrite ev.event_id],
          ["Stored fraud event: " ++ ev.event_id]) := by
  rw [fraudStep, if_pos hf, h]

theorem fraudStep_neg (env : Env) (ev : Event) (db : DB) (hf : ¬isFraudEvent ev) :
    fraudStep env ev db = Except.ok (db, [], []) := by
  rw [fraudStep, if_neg hf]

/-- C8: in the queue consumer, a failure while processing any single
message is caught and logged (`Failed to store message` appears in the
log) and never terminates the processing loop or the process: the loop
always fetches every queued message (the reported count equals the queue
length) and terminates exactly when the queue reports empty, logging the
finishing banner with the count of events handled. -/
theorem queue_consumer_loop_survives_failures (env : Env) (cfg : Config)
    (queue : List Message) (db : DB) :
    (store_queued_events env cfg queue db).eventCount = queue.length ∧
    (store_queued_events env cfg queue db).log.getLast?
      = some ("Queue is empty - finishing after " ++ toString queue.length
          ++ " events") ∧
    ∀ pre m post, queue = pre ++ m :: post →
      (processMessage env (obtainDecryptionKey cfg)
          (dbAfter env (obtainDecryptionKey cfg) pre db) m).deleted = false →
      "Failed to store message" ∈ (store_queued_events env cfg queue db).log := by
  refine ⟨?_, ?_, ?_⟩
  · rw [store_queued_events, runLoop_eventCount]
    omega
  · rw [store_queued_events, runLoop_log_getLast]
    rw [show 0 + queue.length = queue.length from by omega]
  · intro pre m post hq hfail
    subst hq
    exact mem_log_runLoop env (obtainDecryptionKey cfg) pre m post db 0 _
      (processMessage_failed_logged env (obtainDecryptionKey cfg) _ m hfail)

/-- An environment whose decryption always raises (used to discharge the
failure hypotheses of C8 and C10 at a concrete input). -/
def envFail : Env :=
  { decrypt_message := fun _ _ => Except.error "decrypt failure"
    event_from_json := fun _ => Except.error "bad json"
    write_audit_event_to_database := fun e db => Except.ok (DbRecord.audit e :: db)
    write_billing_event_to_database := fun e db => Except.ok (DbRecord.billing e :: db)
    write_fraud_event_to_database := fun e db => Except.ok (DbRecord.fraud e :: db) }

/-- A configuration sourcing the key from the environment variable. -/
def cfg0 : Config :=
  { encryptionKeyEnv := some "encrypted", fetchedKey := "fetched",
    kmsDecrypt := fun s => s }

/-- Concrete discharge of C8's hypotheses: one message whose decryption
fails is counted, the failure is logged, and the loop still finishes. -/
theorem queue_consumer_loop_survives_failures_witness :
    (store_queued_events envFail cfg0 [Message.mk "a"] []).eventCount = 1 ∧
    "Failed to store message" ∈ (store_queued_events envFail cfg0 [Message.mk "a"] []).log ∧
    (store_queued_events envFail cfg0 [Message.mk "a"] []).log.getLast?
      = some "Queue is empty - finishing after 1 events" :=
  ⟨(queue_consumer_loop_survives_failures envFail cfg0 [Message.mk "a"] []).1,
   (queue_consumer_loop_survives_failures envFail cfg0 [Message.mk "a"] []).2.2
     [] (Message.mk "a") [] rfl (by rfl),
   (queue_consumer_loop_survives_failures envFail cfg0 [Message.mk "a"] []).2.1⟩

/-- C9: for every successfully decrypted and mapped queue message (all
database writes succeeding), the consumer writes an audit record first,
additionally writes a billing record iff the event's type is
`session_event` with detail `session_event_type = idp_authn_succeeded`,
writes a fraud record iff the detail is `fraud_detected`, and deletes the
message from the queue last. -/
theorem consumer_writes_and_deletes (env : Env) (key : String) (db : DB)
    (m : Message) (dec : String) (ev : Event)
    (h1 : env.decrypt_message m.body key = Except.ok dec)
    (h2 : env.event_from_json dec = Except.ok ev)
    (hW : (∀ e d, ∃ d2, env.write_audit_event_to_database e d = Except.ok d2) ∧
          (∀ e d, ∃ d2, env.write_billing_event_to_database e d = Except.ok d2) ∧
          (∀ e d, ∃ d2, env.write_fraud_event_to_database e d = Except.ok d2)) :
    (processMessage env key db m).actions
      = [Action.auditWrite ev.event_id]
        ++ (if isBillingEvent ev then [Action.billingWrite ev.event_id] else [])
        ++ (if isFraudEvent ev then [Action.fraudWrite ev.event_id] else [])
        ++ [Action.deleteFromQueue] ∧
    (processMessage env key db m).deleted = true := by
  obtain ⟨hA, hB, hF⟩ := hW
  obtain ⟨db1, hdb1⟩ := hA ev db
  by_cases hb : isBillingEvent ev
  · obtain ⟨db2, hdb2⟩ := hB ev db1
    have hf : ¬isFraudEvent ev := fun hf => not_billing_and_fraud ev hb hf
    simp only [processMessage, h1, h2, hdb1, billingStep_pos env ev db1 hb db2 hdb2,
      fraudStep_neg env ev db2 hf]
    simp [hb, hf]
  · by_cases hf : isFraudEvent ev
    · obtain ⟨db2, hdb2⟩ := hF ev db1
      simp only [processMessage, h1, h2, hdb1, billingStep_neg env ev db1 hb,
        fraudStep_pos env ev db1 hf db2 hdb2]
      simp [hb, hf]
    · simp only [processMessage, h1, h2, hdb1, billingStep_neg env ev db1 hb,
        fraudStep_neg env ev db1 hf]
      simp [hb, hf]

/-- An environment where every step succeeds and mapping yields a billing
session event. -/
def envOk : Env :=
  { decrypt_message := fun b _ => Except.ok b
    event_from_json := fun s =>
      Except.ok ⟨s, "session_event", [("session_event_type", "idp_authn_succeeded")]⟩
    write_audit_event_to_database := fun e db => Except.ok (DbRecord.audit e :: db)
    write_billing_event_to_database := fun e db => Except.ok (DbRecord.billing e :: db)
    write_fraud_event_to_database := fun e db => Except.ok (DbRecord.fraud e :: db) }

/-- Concrete discharge of C9's hypotheses: a billing session event gets
audit and billing writes, no fraud write, and is deleted. -/
theorem consumer_writes_and_deletes_witness :
    (processMessage envOk "key" [] (Message.mk "a")).actions
      = [Action.auditWrite "a", Action.billingWrite "a", Action.deleteFromQueue] ∧
    (processMessage envOk "key" [] (Message.mk "a")).deleted = true :=
  have h := consumer_writes_and_deletes envOk "key" [] (Message.mk "a") "a"
    ⟨"a", "session_event", [("session_event_type", "idp_authn_succeeded")]⟩
    rfl rfl
    ⟨fun e d => ⟨DbRecord.audit e :: d, rfl⟩,
     fun e d => ⟨DbRecord.billing e :: d, rfl⟩,
     fun e d => ⟨DbRecord.fraud e :: d, rfl⟩⟩
  ⟨by rw [h.1]; decide, h.2⟩

/-- All the steps of handling one message succeed: decryption, mapping,
the audit write, and whichever conditional write applies. -/
def stepsOk (env : Env) (key : String) (db : DB) (m : Message) : Prop :=
  ∃ dec ev db1,
    env.decrypt_message m.body key = Except.ok dec ∧
    env.event_from_json dec = Except.ok ev ∧
    env.write_audit_event_to_database ev db = Except.ok db1 ∧
    ((isBillingEvent ev ∧ ∃ db2, env.write_billing_event_to_database ev db1 = Except.ok db2) ∨
     (isFraudEvent ev ∧ ∃ db2, env.write_fraud_event_to_database ev db1 = Except.ok db2) ∨
     (¬isBillingEvent ev ∧ ¬isFraudEvent ev))

/-- C10: a message whose processing raises at any step (decryption,
mapping, or any database write) is never deleted from the queue — the
delete is reached exactly when every step for that message completed —
and a failed message remains in the queue for a later retry. -/
theorem failed_message_never_deleted (env : Env) (key : String) :
    (∀ db m, (processMessage env key db m).deleted = true ↔ stepsOk env key db m) ∧
    (∀ pre m post db n,
      (processMessage env key (dbAfter env key pre db) m).deleted = false →
      m ∈ (runLoop env key (pre ++ m :: post) db n).remaining) := by
  refine ⟨?_, mem_remaining_runLoop env key⟩
  intro db m
  constructor
  · intro h
    unfold processMessage at h
    rcases hdec : env.decrypt_message m.body key with e | dec
    · simp only [hdec] at h
      exact absurd h (by simp)
    · simp only [hdec] at h
      rcases hev : env.event_from_json dec with e | ev
      · simp only [hev] at h
        exact absurd h (by simp)
      · simp only [hev] at h
        rcases hdb1 : env.write_audit_event_to_database ev db with e | db1
        · simp only [hdb1] at h
          exact absurd h (by simp)
        · simp only [hdb1] at h
          rcases hbs : billingStep env ev db1 with e | pr
          · simp only [hbs] at h
            exact absurd h (by simp)
          · obtain ⟨db2, acts2, log3⟩ := pr
            simp only [hbs] at h
            refine ⟨dec, ev, db1, hdec, hev, hdb1, ?_⟩
            by_cases hb : isBillingEvent ev
            · rw [billingStep, if_pos hb] at hbs
              refine Or.inl ⟨hb, ?_⟩
              rcases hw : env.write_billing_event_to_database ev db1 with e | d2
              · rw [hw] at hbs
                exact absurd hbs (by simp)
              · exact ⟨d2, rfl⟩
            · by_cases hf : isFraudEvent ev
              · rw [billingStep_neg env ev db1 hb] at hbs
                have hpr := Except.ok.inj hbs
                have hdb2 : db1 = db2 := congrArg Prod.fst hpr
                subst hdb2
                refine Or.inr (Or.inl ⟨hf, ?_⟩)
                rcases hfs : fraudStep env ev db1 with e | pr2
                · simp only [hfs] at h
                  exact absurd h (by simp)
                · rw [fraudStep, if_pos hf] at hfs
                  rcases hw : env.write_fraud_event_to_database ev db1 with e | d3
                  · rw [hw] at hfs
                    exact absurd hfs (by simp)
                  · exact ⟨d3, rfl⟩
              · exact Or.inr (Or.inr ⟨hb, hf⟩)
  · intro h
    obtain ⟨dec, ev, db1, hdec, hev, hdb1, hrest⟩ := h
    rcases hrest with ⟨hb, db2, hdb2⟩ | ⟨hf, db2, hdb2⟩ | ⟨hb, hf⟩
    · have hf : ¬isFraudEvent ev := fun hf => not_billing_and_fraud ev hb hf
      simp only [processMessage, hdec, hev, hdb1,
        billingStep_pos env ev db1 hb db2 hdb2, fraudStep_neg env ev db2 hf]
    · have hb : ¬isBillingEvent ev := fun hb => not_billing_and_fraud ev hb hf
      simp only [processMessage, hdec, hev, hdb1, billingStep_neg env ev db1 hb,
        fraudStep_pos env ev db1 hf db2 hdb2]
    · simp only [processMessage, hdec, hev, hdb1, billingStep_neg env ev db1 hb,
        fraudStep_neg env ev db1 hf]

/-- Concrete discharge of C10's hypotheses: a message failing decryption
stays in the queue. -/
theorem failed_message_never_deleted_witness :
    Message.mk "a" ∈ (runLoop envFail "key" [Message.mk "a"] [] 0).remaining :=
  (failed_message_never_deleted envFail "key").2 [] (Message.mk "a") [] [] 0 (by rfl)

end EventRecorder
